import Mathlib

/-!
Shallow embedding of `emlearn/eml_trees.h` (decision-tree ensemble inference).

Modelling conventions:
* C integer types (`int8_t`, `int16_t`, `int32_t`) become `ℤ` (all the claims
  concern well-formed models where no overflow occurs); sizes and counts that
  are always non-negative (`n_features`, `n_classes`, lengths) become `ℕ`.
* C `float` arithmetic is idealised as exact `ℚ` arithmetic.  Note that the
  expression `leaf_data[class_no] / 255` in the source is *integer* division
  (a `uint8_t` promoted to `int`, divided by the `int` literal `255`) and is
  embedded as such; only the later accumulation and the mean are `ℚ`.
* Pointer + length pairs become Lean lists: `nodes`, `tree_roots` and
  `leaves` are lists and `n_nodes`, `n_trees`, `n_leaves` are their lengths.
  The 4-byte IEEE-754 leaf payloads used by the regression path
  (`*(float*)(leaves + 4*leaf)`) are carried as the list `leavesF` of the
  decoded values (the byte-to-float reinterpretation is a fixed deterministic
  function of the byte buffer, idealised into `ℚ` like every other float).
* Nullable pointers at the `predict_proba` API boundary become `Option`.
* The traversal loop of `eml_trees_predict_tree` is given fuel; `none` means
  the loop did not finish within the fuel (malformed/cyclic models are
  undefined behaviour in the source).
* Out-of-range reads (UB in C) are embedded with `getD` defaults; every
  theorem that depends on a read supplies the in-bounds hypotheses under
  which the default is never taken.
-/

/-- `EmlTreesNode` from eml_trees.h: decision node with feature index,
threshold (`value`), and left/right children encoded as relative offsets
(non-negative) or leaf sentinels (negative, leaf = -v-1). -/
structure EmlTreesNode where
  feature : ℤ
  value : ℤ
  left : ℤ
  right : ℤ
deriving Repr, DecidableEq, Inhabited

/-- `EmlTrees` from eml_trees.h.  `nodes`, `tree_roots`, `leaves` are the
flat arrays (with `n_nodes = nodes.length` etc.); `leavesF` carries the
regression payload: the leaf byte buffer reinterpreted as an array of
IEEE-754 binary32 floats, idealised as rationals. -/
structure EmlTrees where
  nodes : List EmlTreesNode
  tree_roots : List ℤ
  leaves : List ℕ
  leavesF : List ℚ
  leaf_bits : ℤ
  n_features : ℕ
  n_classes : ℕ
deriving Repr, DecidableEq, Inhabited

/-- `EmlTreesError` enum from eml_trees.h. -/
inductive EmlTreesError where
  | EmlTreesOK
  | EmlTreesUnknownError
  | EmlTreesInvalidClassPredicted
  | EmlTreesErrorLength
deriving Repr, DecidableEq

/-- Numeric value of each `EmlTreesError` enumerator (OK = 0, ...). -/
def EmlTreesError.code : EmlTreesError → ℤ
  | .EmlTreesOK => 0
  | .EmlTreesUnknownError => 1
  | .EmlTreesInvalidClassPredicted => 2
  | .EmlTreesErrorLength => 3

/-- Modelled from the spec: the `EmlError` status enumeration comes from
`eml_common.h`, which is not part of the sources here.  The spec lists the
error kinds exposed to callers: OK, generic/unknown failure, size-mismatch,
unsupported-encoding, uninitialized-input (named `EmlUninitialized`). -/
inductive EmlError where
  | EmlOk
  | EmlUnknownError
  | EmlSizeMismatch
  | EmlUnsupported
  | EmlUninitialized
deriving Repr, DecidableEq

/-- One iteration of the traversal loop body of `eml_trees_predict_tree`:
read the node at `node_idx`, compare `features[node.feature] < node.value`,
pick `left`/`right`, then either advance by the relative offset (child ≥ 0)
or move to the leaf sentinel (child < 0). -/
def traverseStep (forest : EmlTrees) (features : List ℤ) (node_idx : ℤ) : ℤ :=
  let node := forest.nodes.getD node_idx.toNat default
  let value := features.getD node.feature.toNat 0
  let child := if value < node.value then node.left else node.right
  if 0 ≤ child then node_idx + child else child

/-- `eml_trees_predict_tree`: iterate the loop while `node_idx ≥ 0`; on exit
return the leaf index `-node_idx - 1`.  Fuel bounds the number of loop
iterations; `none` models non-termination (malformed model, UB in C). -/
def eml_trees_predict_tree (forest : EmlTrees) (features : List ℤ) :
    ℕ → ℤ → Option ℤ
  | 0, node_idx => if 0 ≤ node_idx then none else some (-node_idx - 1)
  | fuel + 1, node_idx =>
    if 0 ≤ node_idx then
      eml_trees_predict_tree forest features fuel (traverseStep forest features node_idx)
    else
      some (-node_idx - 1)

/-- Concrete scenario A from the spec: a single-node tree
`{feature=0, threshold=10, left=leaf(0), right=leaf(1)}` (leaf k is the
sentinel `-k-1`). -/
def sceneA : EmlTrees :=
  { nodes := [⟨0, 10, -1, -2⟩]
    tree_roots := [0]
    leaves := [0, 1]
    leavesF := []
    leaf_bits := 0
    n_features := 1
    n_classes := 2 }

/-- C2: traversal starts at `node_idx = tree_root`; while `node_idx ≥ 0` it
reads the node, takes `left` if `features[feature] < threshold` else `right`,
adds the child when it is ≥ 0 and otherwise jumps to it; on exit it returns
`-node_idx - 1`.  For the single node `{feature=0, threshold=10, left=leaf(0),
right=leaf(1)}`, features `[5]` give leaf 0 and features `[15]` give leaf 1. -/
theorem predict_tree_loop_spec :
    (∀ (forest : EmlTrees) (features : List ℤ) (fuel : ℕ) (node_idx : ℤ),
      node_idx < 0 →
      eml_trees_predict_tree forest features fuel node_idx = some (-node_idx - 1)) ∧
    (∀ (forest : EmlTrees) (features : List ℤ) (fuel : ℕ) (node_idx : ℤ),
      0 ≤ node_idx →
      eml_trees_predict_tree forest features (fuel + 1) node_idx =
        eml_trees_predict_tree forest features fuel (traverseStep forest features node_idx)) ∧
    eml_trees_predict_tree sceneA [5] 2 0 = some 0 ∧
    eml_trees_predict_tree sceneA [15] 2 0 = some 1 := by
  refine ⟨?_, ?_, by decide, by decide⟩
  · intro forest features fuel node_idx h
    cases fuel with
    | zero => simp [eml_trees_predict_tree, not_le.mpr h]
    | succ n => simp [eml_trees_predict_tree, not_le.mpr h]
  · intro forest features fuel node_idx h
    simp [eml_trees_predict_tree, h]

/-- Witness for C2: instantiating the loop-exit clause at `node_idx = -3`
yields leaf 2. -/
theorem predict_tree_loop_spec_witness :
    eml_trees_predict_tree sceneA [5] 4 (-3) = some 2 :=
  predict_tree_loop_spec.1 sceneA [5] 4 (-3) (by decide)

/-- Apply `f` to the first `n` entries of a list (the C loops
`for (i=0; i<n; i++) out[i] = f(out[i]);` over a buffer that may be longer
than `n`). -/
def mapFirst (f : ℚ → ℚ) : ℕ → List ℚ → List ℚ
  | 0, l => l
  | _ + 1, [] => []
  | n + 1, x :: xs => f x :: mapFirst f n xs

/-- The zero-fill loop at the top of `eml_trees_predict_proba`. -/
def zeroFill (n : ℕ) (out : List ℚ) : List ℚ :=
  mapFirst (fun _ => 0) n out

/-- `eml_trees_outputs_proba`: number of outputs of the probability API. -/
def eml_trees_outputs_proba (self : EmlTrees) : ℕ :=
  self.n_classes

/-- Majority-vote accumulation loop of `eml_trees_predict_proba`
(`leaf_bits == 0`): for each tree, traverse to a leaf, read the class byte at
`leaves[leaf]`, and add `1.0` to `out[class]`. -/
def majorityAccum (self : EmlTrees) (features : List ℤ) (fuel : ℕ) :
    List ℤ → List ℚ → Option (List ℚ)
  | [], out => some out
  | root :: rest, out =>
    match eml_trees_predict_tree self features fuel root with
    | none => none
    | some leaf =>
      let class_no := self.leaves.getD leaf.toNat 0
      majorityAccum self features fuel rest (out.set class_no (out.getD class_no 0 + 1))

/-- Inner class loop of the soft-vote path: for `class_no` in `[0, k)` add
`leaf_data[class_no] / 255` to `out[class_no]`.  As in the C source this
division is integer division (`uint8_t` promoted to `int`, divided by the
`int` literal `255`), only then converted to float. -/
def softAdd (leaves : List ℕ) (leaf_offset : ℕ) : ℕ → List ℚ → List ℚ
  | 0, out => out
  | k + 1, out =>
    let out1 := softAdd leaves leaf_offset k out
    let b := leaves.getD (leaf_offset + k) 0
    out1.set k (out1.getD k 0 + ((b / 255 : ℕ) : ℚ))

/-- Soft-vote accumulation loop of `eml_trees_predict_proba`
(`leaf_bits == 8`): for each tree, traverse to a leaf, and add the decoded
per-class values at `leaves[leaf * n_classes ..]` to `out`. -/
def softAccum (self : EmlTrees) (features : List ℤ) (fuel : ℕ) :
    List ℤ → List ℚ → Option (List ℚ)
  | [], out => some out
  | root :: rest, out =>
    match eml_trees_predict_tree self features fuel root with
    | none => none
    | some leaf =>
      let leaf_offset := leaf.toNat * self.n_classes
      softAccum self features fuel rest (softAdd self.leaves leaf_offset self.n_classes out)

/-- `eml_trees_predict_proba`.  Nullable pointers are `Option`s; the result
pairs the returned `EmlError` with the final contents of the output buffer
(`none` for the buffer when the `out` pointer was null, and `none` overall
when a traversal did not terminate within the fuel). -/
def eml_trees_predict_proba (self : EmlTrees) (features? : Option (List ℤ))
    (_features_length : ℕ) (out? : Option (List ℚ)) (out_length : ℕ)
    (fuel : ℕ) : Option (EmlError × Option (List ℚ)) :=
  match features? with
  | none => some (.EmlUninitialized, out?)
  | some features =>
    match out? with
    | none => some (.EmlUninitialized, none)
    | some out =>
      if out_length ≠ eml_trees_outputs_proba self then
        some (.EmlSizeMismatch, some out)
      else
        let out0 := zeroFill out_length out
        if self.leaf_bits = 0 then
          match majorityAccum self features fuel self.tree_roots out0 with
          | none => none
          | some acc =>
            some (.EmlOk, some (mapFirst (fun q => q / (self.tree_roots.length : ℚ)) out_length acc))
        else if self.leaf_bits = 8 then
          match softAccum self features fuel self.tree_roots out0 with
          | none => none
          | some acc =>
            some (.EmlOk, some (mapFirst (fun q => q / (self.tree_roots.length : ℚ)) out_length acc))
        else
          some (.EmlUnsupported, some out0)

/-- Concrete scenario C from the spec: soft-vote model, 1 tree, 2 classes,
leaf bytes `{200, 55}`.  The single node sends every input to leaf 0. -/
def sceneC : EmlTrees :=
  { nodes := [⟨0, 10, -1, -1⟩]
    tree_roots := [0]
    leaves := [200, 55]
    leavesF := []
    leaf_bits := 8
    n_features := 1
    n_classes := 2 }

/-- C1 (code bug): at scenario C the soft-vote decode `leaf_data[class_no] / 255`
is C integer division, so the bytes 200 and 55 both decode to 0 and
`predict_proba` returns `{0, 0}`, not `{200/255, 55/255}` as the spec states. -/
theorem predict_proba_soft_vote_integer_division_bug :
    eml_trees_predict_proba sceneC (some [5]) 1 (some [7, 9]) 2 2 =
      some (.EmlOk, some [0, 0]) ∧
    (0 : ℚ) ≠ 200 / 255 ∧ (0 : ℚ) ≠ 55 / 255 := by
  refine ⟨?_, by norm_num, by norm_num⟩
  simp [eml_trees_predict_proba, sceneC, eml_trees_outputs_proba, zeroFill, mapFirst,
    softAccum, softAdd, eml_trees_predict_tree, traverseStep]

/-- C9: `predict_proba` rejects a null `features` pointer or a null `out`
pointer with `EmlUninitialized`, and `out_length ≠ n_classes` with
`EmlSizeMismatch`; in all three cases the output buffer is returned exactly
as it was passed in, i.e. nothing (not even the zero-fill) was written. -/
theorem predict_proba_precondition_checks :
    (∀ (self : EmlTrees) (flen : ℕ) (out? : Option (List ℚ)) (ol fuel : ℕ),
      eml_trees_predict_proba self none flen out? ol fuel =
        some (.EmlUninitialized, out?)) ∧
    (∀ (self : EmlTrees) (features : List ℤ) (flen ol fuel : ℕ),
      eml_trees_predict_proba self (some features) flen none ol fuel =
        some (.EmlUninitialized, none)) ∧
    (∀ (self : EmlTrees) (features : List ℤ) (flen : ℕ) (out : List ℚ) (ol fuel : ℕ),
      ol ≠ self.n_classes →
      eml_trees_predict_proba self (some features) flen (some out) ol fuel =
        some (.EmlSizeMismatch, some out)) := by
  refine ⟨fun self flen out? ol fuel => rfl, fun self features flen ol fuel => rfl, ?_⟩
  intro self features flen out ol fuel h
  simp [eml_trees_predict_proba, eml_trees_outputs_proba, h]

/-- Witness for C9: a size-mismatched call (out_length 3, 2 classes) is
rejected with the buffer untouched. -/
theorem predict_proba_precondition_checks_witness :
    eml_trees_predict_proba sceneA (some [5]) 1 (some [1, 2]) 3 0 =
      some (.EmlSizeMismatch, some [1, 2]) :=
  predict_proba_precondition_checks.2.2 sceneA [5] 1 [1, 2] 3 0 (by decide)

theorem mapFirst_length (f : ℚ → ℚ) (n : ℕ) (l : List ℚ) :
    (mapFirst f n l).length = l.length := by
  induction l generalizing n with
  | nil => cases n <;> simp [mapFirst]
  | cons x xs ih =>
    cases n with
    | zero => simp [mapFirst]
    | succ m => simp [mapFirst, ih]

theorem mapFirst_get?_lt (f : ℚ → ℚ) (n : ℕ) (l : List ℚ) (i : ℕ)
    (h1 : i < n) (h2 : i < l.length) :
    (mapFirst f n l).get? i = some (f (l.getD i 0)) := by
  induction l generalizing n i with
  | nil => simp at h2
  | cons x xs ih =>
    cases n with
    | zero => omega
    | succ m =>
      cases i with
      | zero => simp [mapFirst]
      | succ j =>
        simpa [mapFirst] using ih m j (by omega) (by simpa using h2)

/-- A regression-encoded model (leaf_bits = 32): one node sending every
input to leaf 0, whose float payload is 1/2. -/
def sceneR : EmlTrees :=
  { nodes := [⟨0, 0, -1, -1⟩]
    tree_roots := [0]
    leaves := []
    leavesF := [1/2]
    leaf_bits := 32
    n_features := 1
    n_classes := 1 }

/-- C10: when `predict_proba` fails with `EmlUnsupported` (leaf_bits neither
0 nor 8), the zero-fill has already run: every element of
`out[0..out_length)` is 0 in the returned buffer. -/
theorem predict_proba_unsupported_zero_filled :
    ∀ (self : EmlTrees) (features : List ℤ) (flen : ℕ) (out : List ℚ) (fuel : ℕ),
      self.leaf_bits ≠ 0 → self.leaf_bits ≠ 8 →
      self.n_classes ≤ out.length →
      ∃ out2,
        eml_trees_predict_proba self (some features) flen (some out) self.n_classes fuel =
          some (.EmlUnsupported, some out2) ∧
        ∀ i < self.n_classes, out2.get? i = some 0 := by
  intro self features flen out fuel h0 h8 hlen
  refine ⟨zeroFill self.n_classes out, ?_, ?_⟩
  · simp [eml_trees_predict_proba, eml_trees_outputs_proba, h0, h8]
  · intro i hi
    exact mapFirst_get?_lt _ _ _ _ hi (lt_of_lt_of_le hi hlen)

/-- Witness for C10: a leaf_bits = 32 model rejected by `predict_proba`
returns a zeroed buffer. -/
theorem predict_proba_unsupported_zero_filled_witness :
    ∃ out2,
      eml_trees_predict_proba sceneR (some [0]) 1 (some [5]) sceneR.n_classes 0 =
        some (.EmlUnsupported, some out2) ∧
      ∀ i < sceneR.n_classes, out2.get? i = some 0 :=
  predict_proba_unsupported_zero_filled sceneR [0] 1 [5] 0
    (by decide) (by decide) (by decide)

theorem mapFirst_eq_map (f : ℚ → ℚ) (n : ℕ) (l : List ℚ) (h : l.length ≤ n) :
    mapFirst f n l = l.map f := by
  induction l generalizing n with
  | nil => cases n <;> simp [mapFirst]
  | cons x xs ih =>
    cases n with
    | zero => simp at h
    | succ m => simp [mapFirst, ih m (by simpa using h)]

theorem zeroFill_sum (n : ℕ) (l : List ℚ) (h : l.length ≤ n) :
    (zeroFill n l).sum = 0 := by
  rw [zeroFill, mapFirst_eq_map _ _ _ h]
  induction l with
  | nil => simp
  | cons x xs ih => simp [ih]

theorem sum_set_add (l : List ℚ) (i : ℕ) (q : ℚ) (h : i < l.length) :
    (l.set i (l.getD i 0 + q)).sum = l.sum + q := by
  induction l generalizing i with
  | nil => simp at h
  | cons x xs ih =>
    cases i with
    | zero => simp [List.set]; ring
    | succ j =>
      have := ih j (by simpa using h)
      simp only [List.set, List.getD_cons_succ, List.sum_cons, this]
      ring

/-- One traversal resolves to an in-range leaf index: the tree at `root`
terminates within the fuel and its leaf lies inside the leaf byte buffer. -/
def leafInRange (self : EmlTrees) (features : List ℤ) (fuel : ℕ) (root : ℤ) : Bool :=
  let l := (eml_trees_predict_tree self features fuel root).getD (-1)
  decide (0 ≤ l) && decide (l.toNat < self.leaves.length)

theorem majorityAccum_sum (self : EmlTrees) (features : List ℤ) (fuel : ℕ)
    (hbytes : ∀ b ∈ self.leaves, b < self.n_classes) :
    ∀ (roots : List ℤ) (out : List ℚ),
      out.length = self.n_classes →
      roots.all (leafInRange self features fuel) = true →
      ∃ acc, majorityAccum self features fuel roots out = some acc ∧
        acc.sum = out.sum + roots.length ∧ acc.length = out.length := by
  intro roots
  induction roots with
  | nil => intro out _ _; exact ⟨out, rfl, by simp, rfl⟩
  | cons root rest ih =>
    intro out hlen hall
    rw [List.all_cons, Bool.and_eq_true] at hall
    obtain ⟨hroot, hrest⟩ := hall
    unfold leafInRange at hroot
    rw [Bool.and_eq_true, decide_eq_true_eq, decide_eq_true_eq] at hroot
    obtain ⟨hpos, hlt⟩ := hroot
    cases htrav : eml_trees_predict_tree self features fuel root with
    | none => rw [htrav] at hpos; simp at hpos
    | some leaf =>
      rw [htrav] at hpos hlt
      simp only [Option.getD_some] at hpos hlt
      have hclass : self.leaves.getD leaf.toNat 0 < self.n_classes := by
        have hmem : self.leaves.getD leaf.toNat 0 ∈ self.leaves := by
          rw [List.getD_eq_getElem _ _ hlt]
          exact List.getElem_mem hlt
        exact hbytes _ hmem
      set class_no := self.leaves.getD leaf.toNat 0 with hcn
      set out1 := out.set class_no (out.getD class_no 0 + 1) with hout1
      have hlen1 : out1.length = self.n_classes := by
        rw [hout1, List.length_set, hlen]
      obtain ⟨acc, hacc, hsum, haccl⟩ := ih out1 hlen1 hrest
      refine ⟨acc, ?_, ?_, ?_⟩
      · simp only [majorityAccum, htrav]
        exact hacc
      · rw [hsum, hout1, sum_set_add out class_no 1 (by rw [hlen]; exact hclass)]
        simp only [List.length_cons]
        push_cast
        ring
      · rw [haccl, hout1, List.length_set]

/-- Concrete scenario B from the spec: 3-tree majority-vote ensemble,
2 classes; with features `[0]` the trees vote classes 0, 1, 1. -/
def sceneB : EmlTrees :=
  { nodes := [⟨0, 0, -1, -1⟩, ⟨0, 0, -2, -2⟩, ⟨0, 0, -3, -3⟩]
    tree_roots := [0, 1, 2]
    leaves := [0, 1, 1]
    leavesF := []
    leaf_bits := 0
    n_features := 1
    n_classes := 2 }

/-- C6: for a majority-vote model (leaf_bits = 0) with in-range leaf class
bytes and terminating in-bounds traversals, each tree adds exactly one unit
vote, so the accumulated buffer sums to `n_trees`, and `predict_proba`
returns that accumulation divided elementwise by `n_trees`. -/
theorem predict_proba_majority_vote_sum :
    ∀ (self : EmlTrees) (features : List ℤ) (flen : ℕ) (out : List ℚ) (fuel : ℕ),
      self.leaf_bits = 0 →
      out.length = self.n_classes →
      (∀ b ∈ self.leaves, b < self.n_classes) →
      self.tree_roots.all (leafInRange self features fuel) = true →
      ∃ acc,
        majorityAccum self features fuel self.tree_roots (zeroFill self.n_classes out) =
          some acc ∧
        acc.sum = (self.tree_roots.length : ℚ) ∧
        eml_trees_predict_proba self (some features) flen (some out) self.n_classes fuel =
          some (.EmlOk, some (acc.map (fun q => q / (self.tree_roots.length : ℚ)))) := by
  intro self features flen out fuel hbits hlen hbytes hall
  have hzlen : (zeroFill self.n_classes out).length = self.n_classes := by
    rw [zeroFill, mapFirst_length, hlen]
  obtain ⟨acc, hacc, hsum, haccl⟩ :=
    majorityAccum_sum self features fuel hbytes self.tree_roots
      (zeroFill self.n_classes out) hzlen hall
  refine ⟨acc, hacc, ?_, ?_⟩
  · rw [hsum, zeroFill_sum _ _ (le_of_eq hlen)]
    ring
  · simp only [eml_trees_predict_proba, eml_trees_outputs_proba, ne_eq,
      not_true_eq_false, if_false, hbits, if_true, hacc, ite_true, reduceIte]
    rw [mapFirst_eq_map _ _ _ (by rw [haccl, hzlen])]

/-- Witness for C6: scenario B (3 trees voting classes 0, 1, 1) accumulates
votes summing to 3 and returns `[1/3, 2/3]` after division. -/
theorem predict_proba_majority_vote_sum_witness :
    ∃ acc,
      majorityAccum sceneB [0] 2 sceneB.tree_roots (zeroFill sceneB.n_classes [7, 7]) =
        some acc ∧
      acc.sum = (sceneB.tree_roots.length : ℚ) ∧
      eml_trees_predict_proba sceneB (some [0]) 1 (some [7, 7]) sceneB.n_classes 2 =
        some (.EmlOk, some (acc.map (fun q => q / (sceneB.tree_roots.length : ℚ)))) :=
  predict_proba_majority_vote_sum sceneB [0] 1 [7, 7] 2
    (by decide) (by decide) (by decide) (by decide)

/-- `EMTREES_MAX_CLASSES` from eml_trees.h. -/
def EMTREES_MAX_CLASSES : ℕ := 30

/-- The class-selection loop of `eml_trees_predict`: scan the votes left to
right carrying `(most_voted_class, most_voted_value)`, updating on a strict
`votes[i] > most_voted_value` comparison. -/
def argmaxFrom : List ℚ → ℤ → ℤ → ℚ → ℤ × ℚ
  | [], _, best_c, best_v => (best_c, best_v)
  | v :: rest, i, best_c, best_v =>
    if best_v < v then argmaxFrom rest (i + 1) i v
    else argmaxFrom rest (i + 1) best_c best_v

/-- `eml_trees_predict`: validate lengths, call `predict_proba` into the
30-entry stack buffer, then select the most voted class starting from
`most_voted_class = -1`, `most_voted_value = 0.0`. -/
def eml_trees_predict (forest : EmlTrees) (features? : Option (List ℤ))
    (features_length : ℕ) (fuel : ℕ) : Option ℤ :=
  if features_length ≠ forest.n_features then
    some (-(EmlTreesError.code .EmlTreesErrorLength))
  else if EMTREES_MAX_CLASSES < forest.n_classes then
    some (-(EmlTreesError.code .EmlTreesErrorLength))
  else
    match eml_trees_predict_proba forest features? features_length
        (some (List.replicate EMTREES_MAX_CLASSES 0)) forest.n_classes fuel with
    | none => none
    | some (err, out?) =>
      if err ≠ .EmlOk then some (-(EmlTreesError.code .EmlTreesUnknownError))
      else some (argmaxFrom ((out?.getD []).take forest.n_classes) 0 (-1) 0).1

theorem argmaxFrom_characterization (vs : List ℚ) :
    ∀ (i best_c : ℤ) (best_v : ℚ),
      (argmaxFrom vs i best_c best_v = (best_c, best_v) ∧ ∀ x ∈ vs, x ≤ best_v) ∨
      (∃ j : ℕ, j < vs.length ∧
        (argmaxFrom vs i best_c best_v).1 = i + j ∧
        (argmaxFrom vs i best_c best_v).2 = vs.getD j 0 ∧
        best_v < vs.getD j 0 ∧
        (∀ k < j, vs.getD k 0 < vs.getD j 0) ∧
        (∀ k < vs.length, vs.getD k 0 ≤ vs.getD j 0)) := by
  induction vs with
  | nil => intro i bc bv; left; exact ⟨rfl, by simp⟩
  | cons v rest ih =>
    intro i bc bv
    by_cases h : bv < v
    · right
      have hstep : argmaxFrom (v :: rest) i bc bv = argmaxFrom rest (i + 1) i v := by
        simp [argmaxFrom, h]
      rcases ih (i + 1) i v with ⟨heq, hle⟩ | ⟨j, hj, h1, h2, h3, h4, h5⟩
      · refine ⟨0, by simp, ?_, ?_, by simpa using h, ?_, ?_⟩
        · rw [hstep, heq]; simp
        · rw [hstep, heq]; simp
        · intro k hk; omega
        · intro k hk
          cases k with
          | zero => simp
          | succ m =>
            simp only [List.getD_cons_succ, List.getD_cons_zero]
            refine hle _ ?_
            have hm : m < rest.length := by simpa using hk
            rw [List.getD_eq_getElem _ _ hm]
            exact List.getElem_mem hm
      · refine ⟨j + 1, by simpa using hj, ?_, ?_, ?_, ?_, ?_⟩
        · rw [hstep, h1]; push_cast; ring
        · rw [hstep, h2]; simp
        · simp only [List.getD_cons_succ]
          exact lt_trans h h3
        · intro k hk
          cases k with
          | zero => simpa using h3
          | succ m => simpa using h4 m (by omega)
        · intro k hk
          cases k with
          | zero => simpa using le_of_lt h3
          | succ m => simpa using h5 m (by simpa using hk)
    · have hstep : argmaxFrom (v :: rest) i bc bv = argmaxFrom rest (i + 1) bc bv := by
        simp [argmaxFrom, h]
      rcases ih (i + 1) bc bv with ⟨heq, hle⟩ | ⟨j, hj, h1, h2, h3, h4, h5⟩
      · left
        refine ⟨by rw [hstep, heq], ?_⟩
        intro x hx
        rcases List.mem_cons.mp hx with hx0 | hxr
        · rw [hx0]; exact not_lt.mp h
        · exact hle x hxr
      · right
        refine ⟨j + 1, by simpa using hj, ?_, ?_, ?_, ?_, ?_⟩
        · rw [hstep, h1]; push_cast; ring
        · rw [hstep, h2]; simp
        · simpa using h3
        · intro k hk
          cases k with
          | zero =>
            simp only [List.getD_cons_succ, List.getD_cons_zero]
            exact lt_of_le_of_lt (not_lt.mp h) h3
          | succ m => simpa using h4 m (by omega)
        · intro k hk
          cases k with
          | zero =>
            simp only [List.getD_cons_succ, List.getD_cons_zero]
            exact le_of_lt (lt_of_le_of_lt (not_lt.mp h) h3)
          | succ m => simpa using h5 m (by simpa using hk)

/-- C3: `predict` selects by a left-to-right scan with strict `>` starting
from a running maximum of 0: a returned class index `c ≥ 0` is the first
(lowest) index attaining the strictly greatest score and its score is
strictly positive; an all-zero score vector selects no class (`-1`); and on
a successful `predict_proba` call `predict` returns exactly this scan over
the first `n_classes` votes. -/
theorem predict_argmax_selection_spec :
    (∀ (vs : List ℚ) (c : ℤ),
      (argmaxFrom vs 0 (-1) 0).1 = c → 0 ≤ c →
      ∃ j : ℕ, j < vs.length ∧ c = j ∧ 0 < vs.getD j 0 ∧
        (∀ k < j, vs.getD k 0 < vs.getD j 0) ∧
        (∀ k < vs.length, vs.getD k 0 ≤ vs.getD j 0)) ∧
    (∀ vs : List ℚ, (∀ x ∈ vs, x = 0) → (argmaxFrom vs 0 (-1) 0).1 = -1) ∧
    (∀ (forest : EmlTrees) (features? : Option (List ℤ)) (flen fuel : ℕ) (o : List ℚ),
      flen = forest.n_features → forest.n_classes ≤ EMTREES_MAX_CLASSES →
      eml_trees_predict_proba forest features? flen
        (some (List.replicate EMTREES_MAX_CLASSES 0)) forest.n_classes fuel =
        some (.EmlOk, some o) →
      eml_trees_predict forest features? flen fuel =
        some (argmaxFrom (o.take forest.n_classes) 0 (-1) 0).1) := by
  refine ⟨?_, ?_, ?_⟩
  · intro vs c hc hcpos
    rcases argmaxFrom_characterization vs 0 (-1) 0 with ⟨heq, _⟩ | ⟨j, hj, h1, _, h3, h4, h5⟩
    · rw [heq] at hc; omega
    · rw [h1] at hc
      exact ⟨j, hj, by omega, h3, h4, h5⟩
  · intro vs hzero
    rcases argmaxFrom_characterization vs 0 (-1) 0 with ⟨heq, _⟩ | ⟨j, hj, _, _, h3, _, _⟩
    · rw [heq]
    · have : vs.getD j 0 ∈ vs := by
        rw [List.getD_eq_getElem _ _ hj]
        exact List.getElem_mem hj
      have := hzero _ this
      rw [this] at h3
      exact absurd h3 (lt_irrefl 0)
  · intro forest features? flen fuel o hflen hcls hproba
    rw [eml_trees_predict, if_neg (by omega), if_neg (by omega), hproba]
    simp

/-- Witness for C3: the all-zero two-class vote vector selects no class. -/
theorem predict_argmax_selection_spec_witness :
    (argmaxFrom [0, 0] 0 (-1) 0).1 = -1 :=
  predict_argmax_selection_spec.2.1 [0, 0] (by
    intro x hx
    rcases List.mem_cons.mp hx with h | h
    · exact h
    · simpa using h)

/-- C4: `predict` returns `-EmlTreesErrorLength` when `features_length`
differs from `n_features`, and also when `n_classes > 30`; the result is the
same for every fuel (including 0), i.e. no traversal is involved. -/
theorem predict_length_error_checks :
    ∀ (forest : EmlTrees) (features? : Option (List ℤ)) (flen fuel : ℕ),
      flen ≠ forest.n_features ∨ EMTREES_MAX_CLASSES < forest.n_classes →
      eml_trees_predict forest features? flen fuel =
        some (-(EmlTreesError.code .EmlTreesErrorLength)) := by
  intro forest features? flen fuel h
  by_cases h1 : flen ≠ forest.n_features
  · rw [eml_trees_predict, if_pos h1]
  · rw [eml_trees_predict, if_neg h1,
      if_pos (h.resolve_left h1)]

/-- Witness for C4: a feature-length mismatch (2 vs 1) yields the length
error code `-3` with zero fuel. -/
theorem predict_length_error_checks_witness :
    eml_trees_predict sceneA none 2 0 =
      some (-(EmlTreesError.code .EmlTreesErrorLength)) ∧
    -(EmlTreesError.code .EmlTreesErrorLength) = -3 :=
  ⟨predict_length_error_checks sceneA none 2 0 (Or.inl (by decide)), by decide⟩

/-- The accumulation loop of `eml_trees_regress`: for each tree, traverse to
a leaf and add its decoded float payload (`leavesF[leaf]`, the 4-byte value
at offset `4 * leaf`) to the running sum. -/
def regressSum (forest : EmlTrees) (features : List ℤ) (fuel : ℕ) :
    List ℤ → ℚ → Option ℚ
  | [], sum => some sum
  | root :: rest, sum =>
    match eml_trees_predict_tree forest features fuel root with
    | none => none
    | some leaf =>
      regressSum forest features fuel rest (sum + forest.leavesF.getD leaf.toNat 0)

/-- The per-tree decoded leaf floats, in tree order (specification-side view
of the regression accumulation). -/
def decodeLeaves (forest : EmlTrees) (features : List ℤ) (fuel : ℕ) :
    List ℤ → Option (List ℚ)
  | [] => some []
  | root :: rest =>
    match eml_trees_predict_tree forest features fuel root,
        decodeLeaves forest features fuel rest with
    | some leaf, some vals => some (forest.leavesF.getD leaf.toNat 0 :: vals)
    | _, _ => none

theorem regressSum_eq_decodeLeaves (forest : EmlTrees) (features : List ℤ)
    (fuel : ℕ) :
    ∀ (roots : List ℤ) (s : ℚ),
      regressSum forest features fuel roots s =
        (decodeLeaves forest features fuel roots).map (fun vals => s + vals.sum) := by
  intro roots
  induction roots with
  | nil => intro s; simp [regressSum, decodeLeaves]
  | cons root rest ih =>
    intro s
    cases htrav : eml_trees_predict_tree forest features fuel root with
    | none => simp [regressSum, decodeLeaves, htrav]
    | some leaf =>
      simp only [regressSum, htrav, ih]
      cases hdec : decodeLeaves forest features fuel rest with
      | none => simp [decodeLeaves, htrav, hdec]
      | some vals =>
        simp [decodeLeaves, htrav, hdec]
        ring

/-- `eml_trees_regress`: reject `out_length < 1` (`EmlSizeMismatch`), then
reject `leaf_bits ≠ 32` (`EmlUnsupported`); otherwise sum the per-tree leaf
floats and write `sum / n_trees` to `out[0]`. -/
def eml_trees_regress (forest : EmlTrees) (features : List ℤ)
    (_features_length : ℕ) (out : List ℚ) (out_length : ℕ) (fuel : ℕ) :
    Option (EmlError × List ℚ) :=
  if out_length < 1 then some (.EmlSizeMismatch, out)
  else if forest.leaf_bits ≠ 32 then some (.EmlUnsupported, out)
  else
    match regressSum forest features fuel forest.tree_roots 0 with
    | none => none
    | some s => some (.EmlOk, out.set 0 (s / (forest.tree_roots.length : ℚ)))

/-- `eml_trees_regress1`: call `eml_trees_regress` into a one-element buffer
and collapse any failure to NaN.  The value is `Option ℚ` with `none`
standing for the NaN sentinel; the outer `Option` is fuel exhaustion. -/
def eml_trees_regress1 (forest : EmlTrees) (features : List ℤ)
    (features_length : ℕ) (fuel : ℕ) : Option (Option ℚ) :=
  match eml_trees_regress forest features features_length [0] 1 fuel with
  | none => none
  | some (err, out) =>
    if err ≠ .EmlOk then some none else some (some (out.getD 0 0))

/-- C5 counterexample: `regress` checks `out_length < 1` before the
encoding, so a model with `leaf_bits = 0 ≠ 32` called with an empty output
buffer gets `EmlSizeMismatch`, not the unsupported-encoding error the claim
requires for every such model. -/
theorem regress_size_check_precedes_encoding_check :
    eml_trees_regress sceneB [0] 1 [] 0 2 = some (.EmlSizeMismatch, []) ∧
    sceneB.leaf_bits ≠ 32 ∧
    EmlError.EmlSizeMismatch ≠ EmlError.EmlUnsupported := by
  refine ⟨rfl, by decide, by decide⟩

/-- C5 (amended): once the output buffer has room (`out_length ≥ 1`),
`regress` fails with `EmlUnsupported` exactly when `leaf_bits ≠ 32` (and
leaves the buffer untouched); it succeeds only when `leaf_bits = 32`; and
`regress1` — which always passes `out_length = 1` — returns the NaN
sentinel exactly when `leaf_bits ≠ 32`. -/
theorem regress_unsupported_encoding_spec :
    (∀ (forest : EmlTrees) (features : List ℤ) (flen : ℕ) (out : List ℚ)
        (ol fuel : ℕ),
      1 ≤ ol → forest.leaf_bits ≠ 32 →
      eml_trees_regress forest features flen out ol fuel =
        some (.EmlUnsupported, out)) ∧
    (∀ (forest : EmlTrees) (features : List ℤ) (flen : ℕ) (out : List ℚ)
        (ol fuel : ℕ) (out2 : List ℚ),
      eml_trees_regress forest features flen out ol fuel = some (.EmlOk, out2) →
      forest.leaf_bits = 32) ∧
    (∀ (forest : EmlTrees) (features : List ℤ) (flen fuel : ℕ) (v : Option ℚ),
      eml_trees_regress1 forest features flen fuel = some v →
      (v = none ↔ forest.leaf_bits ≠ 32)) := by
  refine ⟨?_, ?_, ?_⟩
  · intro forest features flen out ol fuel hol hbits
    rw [eml_trees_regress, if_neg (by omega), if_pos hbits]
  · intro forest features flen out ol fuel out2 h
    by_contra hbits
    rw [eml_trees_regress] at h
    by_cases hol : ol < 1
    · rw [if_pos hol] at h
      simp at h
    · rw [if_neg hol, if_pos hbits] at h
      simp at h
  · intro forest features flen fuel v h
    rw [eml_trees_regress1] at h
    by_cases hbits : forest.leaf_bits = 32
    · rw [eml_trees_regress, if_neg (by omega), if_neg (by simp [hbits])] at h
      cases hs : regressSum forest features fuel forest.tree_roots 0 with
      | none => rw [hs] at h; simp at h
      | some s =>
        rw [hs] at h
        simp at h
        rw [← h]
        simp [hbits]
    · rw [eml_trees_regress, if_neg (by omega), if_pos hbits] at h
      simp at h
      rw [← h]
      simp [hbits]

/-- Witness for C5: a majority-vote model with a one-element buffer is
rejected by `regress` with `EmlUnsupported` and the buffer untouched. -/
theorem regress_unsupported_encoding_spec_witness :
    eml_trees_regress sceneB [0] 1 [1] 1 2 = some (.EmlUnsupported, [1]) :=
  regress_unsupported_encoding_spec.1 sceneB [0] 1 [1] 1 2 (by decide) (by decide)

/-- C7: on success `regress` writes the mean of the per-tree decoded leaf
floats (`sum / n_trees`) to `out[0]` and leaves every index ≥ 1 of the
output buffer unchanged. -/
theorem regress_writes_mean_to_head_only :
    ∀ (forest : EmlTrees) (features : List ℤ) (flen : ℕ) (out : List ℚ)
      (ol fuel : ℕ) (out2 : List ℚ),
      eml_trees_regress forest features flen out ol fuel = some (.EmlOk, out2) →
      ∃ vals, decodeLeaves forest features fuel forest.tree_roots = some vals ∧
        out2 = out.set 0 (vals.sum / (forest.tree_roots.length : ℚ)) ∧
        ∀ i : ℕ, 1 ≤ i → out2.get? i = out.get? i := by
  intro forest features flen out ol fuel out2 h
  rw [eml_trees_regress] at h
  by_cases hol : ol < 1
  · rw [if_pos hol] at h; simp at h
  · rw [if_neg hol] at h
    by_cases hbits : forest.leaf_bits ≠ 32
    · rw [if_pos hbits] at h; simp at h
    · rw [if_neg hbits, regressSum_eq_decodeLeaves] at h
      cases hdec : decodeLeaves forest features fuel forest.tree_roots with
      | none => rw [hdec] at h; simp at h
      | some vals =>
        rw [hdec] at h
        simp only [Option.map_some', zero_add, Option.some.injEq, Prod.mk.injEq,
          true_and] at h
        refine ⟨vals, rfl, h.symm, ?_⟩
        intro i hi
        rw [← h]
        exact List.get?_set_ne _ _ (by omega)

/-- Witness for C7: for the one-tree regression model with leaf value 1/2
and buffer `[7, 8]`, the result head is the mean 1/2 and index 1 is kept. -/
theorem regress_writes_mean_to_head_only_witness :
    ∃ vals, decodeLeaves sceneR [0] 2 sceneR.tree_roots = some vals ∧
      [1/2, (8 : ℚ)] = [7, 8].set 0 (vals.sum / (sceneR.tree_roots.length : ℚ)) ∧
      ∀ i : ℕ, 1 ≤ i → [1/2, (8 : ℚ)].get? i = [7, (8 : ℚ)].get? i :=
  regress_writes_mean_to_head_only sceneR [0] 1 [7, 8] 1 2 [1/2, 8] (by
    simp [eml_trees_regress, regressSum, eml_trees_predict_tree, traverseStep, sceneR])

/-- C8: for a `leaf_bits = 32` model, `regress` is a pure deterministic
function of the model and the feature vector: calls with the same model and
features return the same status, and on success the same `out[0]`,
regardless of the initial contents of the (valid, length ≥ 1) output
buffers. -/
theorem regress_pure_deterministic :
    ∀ (forest : EmlTrees) (features : List ℤ) (flen : ℕ)
      (out1 out2 : List ℚ) (ol fuel : ℕ),
      forest.leaf_bits = 32 →
      ((eml_trees_regress forest features flen out1 ol fuel).map Prod.fst =
        (eml_trees_regress forest features flen out2 ol fuel).map Prod.fst) ∧
      (∀ o1 o2 : List ℚ,
        eml_trees_regress forest features flen out1 ol fuel = some (.EmlOk, o1) →
        eml_trees_regress forest features flen out2 ol fuel = some (.EmlOk, o2) →
        1 ≤ out1.length → 1 ≤ out2.length →
        o1.get? 0 = o2.get? 0 ∧ o1.get? 0 ≠ none) := by
  intro forest features flen out1 out2 ol fuel hbits
  by_cases hol : ol < 1
  · refine ⟨?_, ?_⟩
    · rw [eml_trees_regress, eml_trees_regress, if_pos hol, if_pos hol]
      rfl
    · intro o1 o2 h1 h2 _ _
      rw [eml_trees_regress, if_pos hol] at h1
      simp at h1
  · have hne : ¬ forest.leaf_bits ≠ 32 := by simp [hbits]
    cases hs : regressSum forest features fuel forest.tree_roots 0 with
    | none =>
      refine ⟨?_, ?_⟩
      · rw [eml_trees_regress, eml_trees_regress, if_neg hol, if_neg hol,
          if_neg hne, if_neg hne, hs]
      · intro o1 o2 h1 h2 _ _
        rw [eml_trees_regress, if_neg hol, if_neg hne, hs] at h1
        simp at h1
    | some s =>
      refine ⟨?_, ?_⟩
      · rw [eml_trees_regress, eml_trees_regress, if_neg hol, if_neg hol,
          if_neg hne, if_neg hne, hs]
        rfl
      · intro o1 o2 h1 h2 hl1 hl2
        rw [eml_trees_regress, if_neg hol, if_neg hne, hs] at h1
        rw [eml_trees_regress, if_neg hol, if_neg hne, hs] at h2
        simp only [Option.some.injEq, Prod.mk.injEq, true_and] at h1 h2
        rw [← h1, ← h2,
          List.get?_set_eq_of_lt _ (by omega),
          List.get?_set_eq_of_lt _ (by omega)]
        exact ⟨rfl, by simp⟩

/-- Witness for C8: the one-tree regression model produces the same status
for buffers `[7]` and `[8]`. -/
theorem regress_pure_deterministic_witness :
    (eml_trees_regress sceneR [0] 1 [7] 1 2).map Prod.fst =
      (eml_trees_regress sceneR [0] 1 [8] 1 2).map Prod.fst :=
  (regress_pure_deterministic sceneR [0] 1 [7] [8] 1 2 (by decide)).1
